import Mathlib

/-!
Verification development for the contract-risk-bot pipeline
(`src/contract_analysis_full.py`).

The Python program is embedded shallowly:

* Python strings are `String`; substring tests (`k in s`) become `hasSubstr`
  over `List Char`, and `s.lower()` becomes `pyLower` (a `Char.toLower` map,
  which agrees with Python on the ASCII keywords the program uses).
* `re.split(r"\n|\.\s+", text)` becomes `splitClauses`, a direct
  implementation of the leftmost-match scan of that two-alternative regex
  (`\n` tried first, then a period followed by a greedy whitespace run).
* `re.findall(r"\d{1,2}/\d{1,2}/\d{4}", text)` becomes `findDates`, a
  direct implementation of the scan-and-backtrack semantics of that
  pattern (greedy `{1,2}` fields, exactly four year digits).
* The unguarded float division in the Analyze handler
  (`round(sum(scores)/len(scores), 2)`) is embedded over `ℚ`, with `none`
  standing for the `ZeroDivisionError` the Python raises when the clause
  list is empty; `pyRound2` rounds to two decimal digits.
* The audit-log file is explicit state: `Option (List AuditEntry)`, with
  `none` for an absent file, threaded through `audit` exactly as the
  read-append-rewrite in the source.
-/

namespace ContractBot

/-- The ASCII whitespace characters recognised by Python regular-expression
`\s` and by `str.strip` (space, tab, newline, carriage return, vertical
tab, form feed). -/
def isPySpace (c : Char) : Bool :=
  c = ' ' || c = '\t' || c = '\n' || c = '\r' || c = '\x0b' || c = '\x0c'

/-- Python `text.lower()`, viewed as a list of characters. -/
def pyLower (s : String) : List Char :=
  s.toList.map Char.toLower

/-- Python substring membership `needle in hay` over character lists. -/
def hasSubstr (needle : List Char) : List Char → Bool
  | [] => needle.isEmpty
  | c :: t => needle.isPrefixOf (c :: t) || hasSubstr needle t

/-- Keyword test `k in hay` used throughout the source, with the haystack
already lower-cased. -/
def containsKW (hay : List Char) (k : String) : Bool :=
  hasSubstr k.toList hay

/-- Python `s.strip()`: drop whitespace from both ends. -/
def pyStrip (l : List Char) : List Char :=
  ((l.dropWhile isPySpace).reverse.dropWhile isPySpace).reverse

/-- Helper for building split fragments: push a character onto the current
(first) fragment. -/
def consHead (c : Char) : List (List Char) → List (List Char)
  | [] => [[c]]
  | h :: t => (c :: h) :: t

/-- Whether the list starts with a Python whitespace character. -/
def headIsSpace : List Char → Bool
  | d :: _ => isPySpace d
  | [] => false

/-- The scan of `re.split(r"\n|\.\s+", text)` as a character-at-a-time
state machine.  `skip = true` means the scanner is inside the greedy
whitespace run of a `\.\s+` match.  Otherwise: a newline splits,
consuming one character; a period followed by whitespace splits,
consuming the period and entering the whitespace run; any other
character joins the current fragment. -/
def splitAux : Bool → List Char → List (List Char)
  | _, [] => [[]]
  | skip, c :: rest =>
    if skip && isPySpace c then splitAux true rest
    else if c = '\n' then [] :: splitAux false rest
    else if c = '.' ∧ headIsSpace rest then [] :: splitAux true rest
    else consHead c (splitAux false rest)

/-- `re.split(r"\n|\.\s+", text)` from `extract_clauses`. -/
def splitClauses (l : List Char) : List (List Char) :=
  splitAux false l

/-- `extract_clauses` (source line 56): split, then the comprehension
`[c.strip() for c in clauses if len(c.strip()) > 30]`. -/
def extract_clauses (text : String) : List String :=
  (splitClauses text.toList).filterMap fun c =>
    let s := pyStrip c
    if 30 < s.length then some (String.mk s) else none

/-- `classify_contract` (source line 38): lower-case the text and walk the
rules dict (insertion order is iteration order in Python), returning the
first contract type one of whose keywords occurs in the text; fall back to
General Commercial Contract.  The four-entry loop is unrolled. -/
def classify_contract (text : String) : String :=
  let t := pyLower text
  if ["employee", "employer", "salary"].any (fun w => containsKW t w) then
    "Employment Agreement"
  else if ["lease", "rent", "premises"].any (fun w => containsKW t w) then
    "Lease Agreement"
  else if ["service", "deliverables"].any (fun w => containsKW t w) then
    "Service Contract"
  else if ["vendor", "supplier"].any (fun w => containsKW t w) then
    "Vendor Agreement"
  else
    "General Commercial Contract"

/-- `classify_clause_type` (source line 79): ordered keyword cascade on the
lower-cased clause. -/
def classify_clause_type (clause : String) : String :=
  let c := pyLower clause
  if ["shall not", "must not", "prohibited"].any (fun k => containsKW c k) then
    "Prohibition"
  else if ["shall", "must"].any (fun k => containsKW c k) then
    "Obligation"
  else if ["may", "can"].any (fun k => containsKW c k) then
    "Right"
  else
    "Neutral"

/-- `RISK_MAP` (source line 94): six bilingual keyword groups, in
declaration order. -/
def RISK_MAP : List (String × List String) := [
  ("Penalty Clause", ["penalty", "fine", "दंड", "जुर्माना"]),
  ("Indemnity Clause", ["indemnify", "indemnity", "क्षतिपूर्ति"]),
  ("Termination Risk", ["terminate", "termination", "समाप्त"]),
  ("Non-Compete Clause", ["non compete", "non-compete", "प्रतिस्पर्धा"]),
  ("IP Transfer", ["intellectual property", "ip rights", "बौद्धिक संपदा"]),
  ("Unilateral Rights", ["without notice", "sole discretion", "बिना सूचना"])]

/-- `detect_risks` (source line 104): collect, in `RISK_MAP` order, the
names of the groups with a keyword occurring in the lower-cased clause. -/
def detect_risks (clause : String) : List String :=
  (RISK_MAP.filter (fun p => p.2.any (fun k => containsKW (pyLower clause) k))).map
    Prod.fst

/-- `risk_level` (source line 112): 0 ↦ Low, 1–2 ↦ Medium, ≥3 ↦ High.
The Python `score` is `len(risks)`, hence a natural number. -/
def risk_level (score : Nat) : String :=
  if score = 0 then "Low"
  else if score ≤ 2 then "Medium"
  else "High"

/-- Rank of the three ordinal risk levels, Low < Medium < High. -/
def levelRank : String → Nat
  | "Medium" => 1
  | "High" => 2
  | _ => 0

/-- The per-clause score list built by the Analyze handler
(source lines 187–190): `scores.append(len(detect_risks(c)))`. -/
def scores (text : String) : List Nat :=
  (extract_clauses text).map fun c => (detect_risks c).length

/-- Python `round(x, 2)` on the exact rational value: round to the nearest
multiple of 1/100 (ties are immaterial to the claims proved here). -/
def pyRound2 (x : ℚ) : ℚ :=
  ((round (x * 100) : ℤ) : ℚ) / 100

/-- The composite score of the Analyze handler (source line 199):
`round(sum(scores) / len(scores), 2)`.  `none` models the
`ZeroDivisionError` the Python raises when no clause was extracted. -/
def composite_risk (text : String) : Option ℚ :=
  let s := scores text
  if s.length = 0 then none
  else some (pyRound2 ((s.sum : ℚ) / (s.length : ℚ)))

/-- One persisted audit record (source line 20). -/
structure AuditEntry where
  timestamp : String
  action : String
deriving DecidableEq

/-- `audit` (source line 19) acting on the explicit file state: read the
array (absent file reads as `[]`), append the new entry, rewrite the whole
file. -/
def audit (ts act : String) (file : Option (List AuditEntry)) :
    Option (List AuditEntry) :=
  let logs := match file with
    | some l => l
    | none => []
  some (logs ++ [⟨ts, act⟩])

/-- What the View Audit Log handler (source line 237) shows. -/
inductive AuditView where
  | shown : List String → AuditView
  | noLogs : AuditView
deriving DecidableEq

/-- The View Audit Log handler: an existing file is rendered line by line;
an absent file yields the explicit message `No audit logs available.`. -/
def viewAuditLog : Option (List AuditEntry) → AuditView
  | some logs => .shown (logs.map fun e => e.timestamp ++ " — " ++ e.action)
  | none => .noLogs

/-- Sequential (non-concurrent) appends of a batch of
(timestamp, action) pairs, starting from a given file state. -/
def appendAll (es : List (String × String)) (file : Option (List AuditEntry)) :
    Option (List AuditEntry) :=
  es.foldl (fun st p => audit p.1 p.2 st) file

/-- An ASCII digit, as matched by `\d` on the program's inputs. -/
def isDigit (c : Char) : Bool :=
  '0' ≤ c && c ≤ '9'

/-- Consume exactly `n` digits from the front of the input, returning the
digits and the remaining input. -/
def takeExactDigits : Nat → List Char → Option (List Char × List Char)
  | 0, l => some ([], l)
  | _ + 1, [] => none
  | n + 1, c :: l =>
    if isDigit c then
      match takeExactDigits n l with
      | some (d, r) => some (c :: d, r)
      | none => none
    else none

/-- Consume a literal slash. -/
def expectSlash : List Char → Option (List Char)
  | [] => none
  | x :: r => if x = '/' then some r else none

/-- One backtracking alternative of the date pattern: exactly `a` day
digits, a slash, exactly `b` month digits, a slash, exactly four year
digits.  Returns the matched text and the remaining input. -/
def mdAlt (a b : Nat) (l : List Char) : Option (List Char × List Char) :=
  (takeExactDigits a l).bind fun p1 =>
  (expectSlash p1.2).bind fun r2 =>
  (takeExactDigits b r2).bind fun p2 =>
  (expectSlash p2.2).bind fun r4 =>
  (takeExactDigits 4 r4).bind fun p3 =>
  some (p1.1 ++ '/' :: (p2.1 ++ '/' :: p3.1), p3.2)

/-- Attempt of `\d{1,2}/\d{1,2}/\d{4}` at the current position, in the
backtracking order of the greedy `{1,2}` quantifiers: two day digits are
tried before one, and for each day width two month digits before one. -/
def matchDateAt (l : List Char) : Option (List Char × List Char) :=
  mdAlt 2 2 l <|> mdAlt 2 1 l <|> mdAlt 1 2 l <|> mdAlt 1 1 l

/-- The scan loop of `re.findall`: try the pattern at each position, and on
success continue after the match (non-overlapping).  Fuel bounds the
recursion; `input.length` steps always suffice because every iteration
consumes at least one character. -/
def findDatesAux : Nat → List Char → List (List Char)
  | 0, _ => []
  | _ + 1, [] => []
  | fuel + 1, c :: rest =>
    match matchDateAt (c :: rest) with
    | some (m, r) => m :: findDatesAux fuel r
    | none => findDatesAux fuel rest

/-- The Dates scan of `extract_entities` (source line 71):
`re.findall(r"\d{1,2}/\d{1,2}/\d{4}", text)` over the raw text. -/
def findDates (text : String) : List String :=
  (findDatesAux text.toList.length text.toList).map String.mk

/-- Checker for the literal shape `D/M/YYYY` or `DD/MM/YYYY`: the whole
string is consumed by one alternative of the date pattern. -/
def dateShape (m : List Char) : Bool :=
  decide (mdAlt 2 2 m = some (m, [])) || decide (mdAlt 2 1 m = some (m, [])) ||
    decide (mdAlt 1 2 m = some (m, [])) || decide (mdAlt 1 1 m = some (m, []))

theorem isPrefixOf_map (f : Char → Char) :
    ∀ l₁ l₂ : List Char, l₁.isPrefixOf l₂ = true →
      (l₁.map f).isPrefixOf (l₂.map f) = true := by
  intro l₁
  induction l₁ with
  | nil => intro l₂ _; simp [List.isPrefixOf]
  | cons a as ih =>
    intro l₂ h
    cases l₂ with
    | nil => simp [List.isPrefixOf] at h
    | cons b bs =>
      simp only [List.isPrefixOf, Bool.and_eq_true, beq_iff_eq] at h
      simp only [List.map_cons, List.isPrefixOf, Bool.and_eq_true, beq_iff_eq]
      exact ⟨by rw [h.1], ih bs h.2⟩

theorem hasSubstr_map (f : Char → Char) :
    ∀ needle hay : List Char, hasSubstr needle hay = true →
      hasSubstr (needle.map f) (hay.map f) = true := by
  intro needle hay
  induction hay with
  | nil =>
    intro h
    cases needle with
    | nil => simp [hasSubstr]
    | cons c t => simp [hasSubstr, List.isEmpty] at h
  | cons c t ih =>
    intro h
    simp only [hasSubstr, Bool.or_eq_true, List.map_cons] at h ⊢
    rcases h with h | h
    · exact Or.inl (isPrefixOf_map f needle (c :: t) h)
    · exact Or.inr (ih h)

/-- Claim C1 evidence: on an input from which no clause qualifies (every
fragment's trimmed length is at most 30), the Analyze handler's composite
score divides by a zero clause count; `none` is the `ZeroDivisionError`
that the unguarded `sum(scores) / len(scores)` raises, so the crash does
propagate instead of a sentinel or reportable error. -/
theorem composite_division_fault_on_empty :
    extract_clauses "Too short. Tiny bits only." = [] ∧
    composite_risk "Too short. Tiny bits only." = none ∧
    composite_risk "" = none := by
  refine ⟨by decide, by decide, by decide⟩

/-- Claim C4: `risk_level` is the fixed step function 0 ↦ Low,
1–2 ↦ Medium, ≥3 ↦ High, monotonic under Low < Medium < High. -/
theorem risk_level_step_monotone :
    risk_level 0 = "Low" ∧ risk_level 1 = "Medium" ∧ risk_level 2 = "Medium" ∧
    (∀ n : Nat, 3 ≤ n → risk_level n = "High") ∧
    (∀ m n : Nat, m ≤ n → levelRank (risk_level m) ≤ levelRank (risk_level n)) := by
  refine ⟨rfl, rfl, rfl, ?_, ?_⟩
  · intro n hn
    unfold risk_level
    rw [if_neg (by omega), if_neg (by omega)]
  · intro m n hmn
    unfold risk_level
    split_ifs <;> first | decide | omega

theorem risk_level_step_monotone_witness :
    risk_level 5 = "High" ∧ levelRank (risk_level 1) ≤ levelRank (risk_level 4) :=
  ⟨risk_level_step_monotone.2.2.2.1 5 (by decide),
   risk_level_step_monotone.2.2.2.2 1 4 (by decide)⟩

/-- Claim C10: the tagger's keyword tests are raw substring membership.
The clause below contains no modal keyword as a standalone word (its only
hit is the `can` inside `cancellation`), yet it classifies as Right, not
Neutral. -/
theorem clause_tagger_no_word_boundary :
    classify_clause_type "Cancellation of the entire order is permitted for ten days"
        = "Right" ∧
    containsKW (pyLower "Cancellation of the entire order is permitted for ten days")
        "shall" = false ∧
    containsKW (pyLower "Cancellation of the entire order is permitted for ten days")
        "must" = false ∧
    containsKW (pyLower "Cancellation of the entire order is permitted for ten days")
        "prohibited" = false ∧
    containsKW (pyLower "Cancellation of the entire order is permitted for ten days")
        "may" = false ∧
    hasSubstr " can ".toList
        (' ' :: pyLower "Cancellation of the entire order is permitted for ten days"
          ++ [' ']) = false := by
  refine ⟨by decide, by decide, by decide, by decide, by decide, by decide⟩

/-- Claim C2: `classify_clause_type` always returns one of the four
modality labels, and a clause containing both `shall not` and `may`
classifies as Prohibition because that group is tested first. -/
theorem classify_clause_type_spec (clause : String) :
    (classify_clause_type clause = "Prohibition" ∨
      classify_clause_type clause = "Obligation" ∨
      classify_clause_type clause = "Right" ∨
      classify_clause_type clause = "Neutral") ∧
    (hasSubstr "shall not".toList clause.toList = true →
      hasSubstr "may".toList clause.toList = true →
      classify_clause_type clause = "Prohibition") := by
  constructor
  · simp only [classify_clause_type]
    split_ifs <;> simp
  · intro h1 _
    have hl : hasSubstr ("shall not".toList.map Char.toLower)
        (clause.toList.map Char.toLower) = true :=
      hasSubstr_map Char.toLower _ _ h1
    have hk : "shall not".toList.map Char.toLower = "shall not".toList := by decide
    rw [hk] at hl
    have hc : (["shall not", "must not", "prohibited"].any
        fun k => containsKW (pyLower clause) k) = true := by
      simp only [List.any_cons, Bool.or_eq_true]
      exact Or.inl hl
    simp [classify_clause_type, hc]

theorem classify_clause_type_spec_witness :
    classify_clause_type "The tenant shall not sublet, though the tenant may decorate"
        = "Prohibition" :=
  (classify_clause_type_spec
      "The tenant shall not sublet, though the tenant may decorate").2
    (by decide) (by decide)

/-- Claim C3: `classify_contract` is total with exactly one of the five
labels, testing the four keyword groups in declaration order and falling
back to General Commercial Contract. -/
theorem classify_contract_spec (text : String) :
    (classify_contract text = "Employment Agreement" ∨
      classify_contract text = "Lease Agreement" ∨
      classify_contract text = "Service Contract" ∨
      classify_contract text = "Vendor Agreement" ∨
      classify_contract text = "General Commercial Contract") ∧
    ((["employee", "employer", "salary"].any fun w => containsKW (pyLower text) w)
        = true → classify_contract text = "Employment Agreement") ∧
    ((["employee", "employer", "salary"].any fun w => containsKW (pyLower text) w)
        = false →
      (["lease", "rent", "premises"].any fun w => containsKW (pyLower text) w)
        = true → classify_contract text = "Lease Agreement") ∧
    ((["employee", "employer", "salary"].any fun w => containsKW (pyLower text) w)
        = false →
      (["lease", "rent", "premises"].any fun w => containsKW (pyLower text) w)
        = false →
      (["service", "deliverables"].any fun w => containsKW (pyLower text) w)
        = true → classify_contract text = "Service Contract") ∧
    ((["employee", "employer", "salary"].any fun w => containsKW (pyLower text) w)
        = false →
      (["lease", "rent", "premises"].any fun w => containsKW (pyLower text) w)
        = false →
      (["service", "deliverables"].any fun w => containsKW (pyLower text) w)
        = false →
      (["vendor", "supplier"].any fun w => containsKW (pyLower text) w)
        = true → classify_contract text = "Vendor Agreement") ∧
    ((["employee", "employer", "salary"].any fun w => containsKW (pyLower text) w)
        = false →
      (["lease", "rent", "premises"].any fun w => containsKW (pyLower text) w)
        = false →
      (["service", "deliverables"].any fun w => containsKW (pyLower text) w)
        = false →
      (["vendor", "supplier"].any fun w => containsKW (pyLower text) w)
        = false → classify_contract text = "General Commercial Contract") := by
  refine ⟨?_, ?_, ?_, ?_, ?_, ?_⟩
  · simp only [classify_contract]
    split_ifs <;> simp
  · intro h1; simp [classify_contract, h1]
  · intro h1 h2; simp [classify_contract, h1, h2]
  · intro h1 h2 h3; simp [classify_contract, h1, h2, h3]
  · intro h1 h2 h3 h4; simp [classify_contract, h1, h2, h3, h4]
  · intro h1 h2 h3 h4; simp [classify_contract, h1, h2, h3, h4]

theorem classify_contract_spec_witness :
    classify_contract "This deed concerns the lease of the premises" = "Lease Agreement" :=
  (classify_contract_spec "This deed concerns the lease of the premises").2.2.1
    (by decide) (by decide)

theorem filterMap_strip_filter (l : List (List Char)) :
    (l.filterMap fun c => let s := pyStrip c
        if 30 < s.length then some (String.mk s) else none)
      = ((l.map pyStrip).filter fun s => 30 < s.length).map String.mk := by
  induction l with
  | nil => rfl
  | cons c t ih =>
    simp only [List.filterMap_cons, List.map_cons, List.filter_cons]
    by_cases h : 30 < (pyStrip c).length
    · simp [h, ih]
    · simp [h, ih]

/-- Claim C5: `extract_clauses` is exactly split–trim–filter: the fragments
of the newline / period-plus-whitespace split, trimmed, kept iff the
trimmed length exceeds 30, in first-occurrence order; and when no
fragment qualifies the result is the empty sequence. -/
theorem extract_clauses_spec (text : String) :
    extract_clauses text
        = (((splitClauses text.toList).map pyStrip).filter
            fun s => 30 < s.length).map String.mk ∧
    ((((splitClauses text.toList).map pyStrip).all fun s => s.length ≤ 30) = true →
      extract_clauses text = []) := by
  have e : extract_clauses text
      = (((splitClauses text.toList).map pyStrip).filter
          fun s => 30 < s.length).map String.mk :=
    filterMap_strip_filter _
  refine ⟨e, ?_⟩
  intro h
  have h2 : (((splitClauses text.toList).map pyStrip).filter
      fun s => 30 < s.length) = [] := by
    rw [List.filter_eq_nil_iff]
    intro a ha
    have ha2 := List.all_eq_true.mp h a ha
    simp at ha2 ⊢
    omega
  rw [e, h2]
  rfl

theorem extract_clauses_spec_witness :
    extract_clauses "Tiny. Also tiny. Nothing qualifies" = [] :=
  (extract_clauses_spec "Tiny. Also tiny. Nothing qualifies").2 (by decide)

/-- No newline and no period-followed-by-whitespace boundary anywhere in
the list: the regex of `extract_clauses` has no match. -/
def noBoundaryB : List Char → Bool
  | [] => true
  | c :: rest => !(c == '\n') && !((c == '.') && headIsSpace rest) && noBoundaryB rest

theorem splitAux_noBoundary :
    ∀ l : List Char, noBoundaryB l = true → splitAux false l = [l] := by
  intro l
  induction l with
  | nil => intro _; rfl
  | cons c rest ih =>
    intro h
    simp only [noBoundaryB, Bool.and_eq_true, Bool.not_eq_true',
      Bool.and_eq_false_iff, beq_eq_false_iff_ne, ne_eq, beq_iff_eq] at h
    obtain ⟨⟨h1, h2⟩, h3⟩ := h
    rw [splitAux]
    rw [if_neg (by simp)]
    rw [if_neg h1]
    rw [if_neg ?hb]
    · rw [ih h3]; rfl
    case hb =>
      rintro ⟨rfl, hs⟩
      rcases h2 with h2 | h2
      · exact h2 rfl
      · rw [hs] at h2; exact absurd h2 (by simp)

/-- Claim C7: segmentation is idempotent on an already-trimmed,
length-qualifying string with no internal boundary — it comes back as the
single clause, unchanged. -/
theorem extract_clauses_idempotent (s : String)
    (h1 : pyStrip s.toList = s.toList) (h2 : 30 < s.toList.length)
    (h3 : noBoundaryB s.toList = true) :
    extract_clauses s = [s] := by
  have e : extract_clauses s = (splitClauses s.toList).filterMap
      (fun c => let t := pyStrip c
                if 30 < t.length then some (String.mk t) else none) := rfl
  rw [e, show splitClauses s.toList = [s.toList] from splitAux_noBoundary _ h3]
  rw [List.filterMap_cons]
  simp only [h1]
  rw [if_pos h2]
  rfl

theorem extract_clauses_idempotent_witness :
    extract_clauses "The employee shall indemnify the company fully"
      = ["The employee shall indemnify the company fully"] :=
  extract_clauses_idempotent "The employee shall indemnify the company fully"
    (by decide) (by decide) (by decide)

/-- Claim C6: with at least one clause, the composite score is the mean of
the per-clause risk-category counts rounded to two decimals; all-zero
counts give exactly 0, and a single clause with two detected categories
gives exactly 2. -/
theorem composite_risk_mean (text : String) (h : extract_clauses text ≠ []) :
    composite_risk text
        = some (pyRound2 (((scores text).sum : ℚ) / ((scores text).length : ℚ))) ∧
    ((∀ c ∈ extract_clauses text, detect_risks c = []) →
      composite_risk text = some 0) ∧
    (∀ c : String, extract_clauses text = [c] → (detect_risks c).length = 2 →
      composite_risk text = some 2) := by
  have hlen : (scores text).length ≠ 0 := by
    simp only [scores, List.length_map]
    exact fun e => h (List.length_eq_zero.mp e)
  have e0 : composite_risk text
      = some (pyRound2 (((scores text).sum : ℚ) / ((scores text).length : ℚ))) := by
    unfold composite_risk
    rw [if_neg hlen]
  refine ⟨e0, ?_, ?_⟩
  · intro hz
    have hs : (scores text).sum = 0 := by
      rw [List.sum_eq_zero_iff]
      intro x hx
      simp only [scores, List.mem_map] at hx
      obtain ⟨c, hc, rfl⟩ := hx
      rw [hz c hc]
      rfl
    rw [e0, hs]
    norm_num [pyRound2]
  · intro c hc h2
    have hs : scores text = [2] := by
      simp [scores, hc, h2]
    rw [e0, hs]
    norm_num [pyRound2]

theorem composite_risk_mean_witness :
    composite_risk "The company may terminate the agreement without notice" = some 2 :=
  (composite_risk_mean "The company may terminate the agreement without notice"
      (by decide)).2.2
    "The company may terminate the agreement without notice" (by decide) (by decide)

theorem appendAll_some (es : List (String × String)) :
    ∀ l : List AuditEntry,
      appendAll es (some l) = some (l ++ es.map fun p => (⟨p.1, p.2⟩ : AuditEntry)) := by
  induction es with
  | nil => intro l; simp [appendAll]
  | cons e es ih =>
    intro l
    show appendAll es (audit e.1 e.2 (some l)) = _
    rw [show audit e.1 e.2 (some l) = some (l ++ [⟨e.1, e.2⟩]) from rfl]
    rw [ih]
    simp

/-- Claim C9: sequential appends starting from no file persist exactly the
appended entries in order; every earlier prefix of appends is left intact
as a prefix of the final array; and viewing with no file after zero
appends yields the explicit no-logs message, not an error. -/
theorem audit_log_spec (es : List (String × String)) :
    (es ≠ [] → appendAll es none
        = some (es.map fun p => (⟨p.1, p.2⟩ : AuditEntry))) ∧
    (∀ k : Nat, ((appendAll (es.take k) none).getD [])
        = (es.map fun p => (⟨p.1, p.2⟩ : AuditEntry)).take k) ∧
    viewAuditLog (appendAll [] none) = AuditView.noLogs := by
  have key : ∀ (fs : List (String × String)) (e : String × String),
      appendAll (e :: fs) none
        = some ((e :: fs).map fun p => (⟨p.1, p.2⟩ : AuditEntry)) := by
    intro fs e
    show appendAll fs (audit e.1 e.2 none) = _
    rw [show audit e.1 e.2 none = some [⟨e.1, e.2⟩] from rfl, appendAll_some]
    simp
  refine ⟨?_, ?_, rfl⟩
  · intro hne
    cases es with
    | nil => exact absurd rfl hne
    | cons e es' => exact key es' e
  · intro k
    cases k with
    | zero => simp [appendAll]
    | succ k =>
      cases es with
      | nil => simp [appendAll]
      | cons e es' =>
        rw [List.take_succ_cons, key]
        simp [List.map_take]

theorem audit_log_spec_witness :
    appendAll [("01-01-2026 10:00:00", "Contract analyzed"),
               ("01-01-2026 10:00:05", "PDF report generated")] none
        = some [⟨"01-01-2026 10:00:00", "Contract analyzed"⟩,
                ⟨"01-01-2026 10:00:05", "PDF report generated"⟩] ∧
    viewAuditLog (appendAll [] none) = AuditView.noLogs :=
  ⟨(audit_log_spec [("01-01-2026 10:00:00", "Contract analyzed"),
      ("01-01-2026 10:00:05", "PDF report generated")]).1 (by decide),
   (audit_log_spec []).2.2⟩

theorem takeExactDigits_sound :
    ∀ (n : Nat) (l d r : List Char), takeExactDigits n l = some (d, r) →
      l = d ++ r ∧ d.length = n ∧ d.all isDigit = true := by
  intro n
  induction n with
  | zero =>
    intro l d r h
    simp only [takeExactDigits, Option.some.injEq, Prod.mk.injEq] at h
    obtain ⟨rfl, rfl⟩ := h
    exact ⟨rfl, rfl, rfl⟩
  | succ n ih =>
    intro l d r h
    cases l with
    | nil => simp [takeExactDigits] at h
    | cons c l' =>
      by_cases hc : isDigit c = true
      · rw [takeExactDigits, if_pos hc] at h
        cases hm : takeExactDigits n l' with
        | none => rw [hm] at h; simp at h
        | some p =>
          obtain ⟨d', r'⟩ := p
          rw [hm] at h
          simp only [Option.some.injEq, Prod.mk.injEq] at h
          obtain ⟨rfl, rfl⟩ := h
          obtain ⟨e1, e2, e3⟩ := ih l' d' _ hm
          refine ⟨by rw [e1]; rfl, by simp [e2], ?_⟩
          simp [List.all_cons, hc, e3]
      · rw [takeExactDigits, if_neg hc] at h
        simp at h

theorem takeExactDigits_complete :
    ∀ (d r : List Char), d.all isDigit = true →
      takeExactDigits d.length (d ++ r) = some (d, r) := by
  intro d
  induction d with
  | nil => intro r _; rfl
  | cons c d' ih =>
    intro r h
    simp only [List.all_cons, Bool.and_eq_true] at h
    rw [List.length_cons, List.cons_append, takeExactDigits, if_pos h.1, ih r h.2]

theorem expectSlash_eq_some (l r : List Char) :
    expectSlash l = some r ↔ l = '/' :: r := by
  cases l with
  | nil => simp [expectSlash]
  | cons x t =>
    by_cases hx : x = '/'
    · subst hx; simp [expectSlash]
    · simp [expectSlash, hx]

theorem expectSlash_cons (t : List Char) : expectSlash ('/' :: t) = some t := by
  simp [expectSlash]

theorem mdAlt_sound (a b : Nat) (l m r : List Char)
    (h : mdAlt a b l = some (m, r)) :
    l = m ++ r ∧ mdAlt a b m = some (m, []) := by
  unfold mdAlt at h
  simp only [Option.bind_eq_some, expectSlash_eq_some, Option.some.injEq,
    Prod.mk.injEq] at h
  obtain ⟨⟨d1, r1⟩, h1, r2, hr1, ⟨d2, r3⟩, h2, r4, hr3, ⟨yr, r5⟩, h3, hm, hr⟩ := h
  obtain ⟨e1, elen1, edig1⟩ := takeExactDigits_sound _ _ _ _ h1
  obtain ⟨e2, elen2, edig2⟩ := takeExactDigits_sound _ _ _ _ h2
  obtain ⟨e3, elen3, edig3⟩ := takeExactDigits_sound _ _ _ _ h3
  simp only at hm hr e2 e3 edig2 edig3 hr1 hr3
  subst hm hr
  constructor
  · rw [e1, hr1, e2, hr3, e3]
    simp
  · subst elen1 elen2
    have hC : takeExactDigits 4 yr = some (yr, []) := by
      have hc0 := takeExactDigits_complete yr [] edig3
      rw [List.append_nil, elen3] at hc0
      exact hc0
    unfold mdAlt
    rw [show (d1 ++ '/' :: (d2 ++ '/' :: yr) : List Char)
        = d1 ++ ('/' :: (d2 ++ '/' :: yr)) from rfl]
    rw [takeExactDigits_complete d1 _ edig1]
    simp only [Option.some_bind]
    rw [expectSlash_cons]
    simp only [Option.some_bind]
    rw [show (d2 ++ '/' :: yr : List Char) = d2 ++ ('/' :: yr) from rfl]
    rw [takeExactDigits_complete d2 _ edig2]
    simp only [Option.some_bind]
    rw [expectSlash_cons]
    simp only [Option.some_bind]
    rw [hC]
    simp only [Option.some_bind]

/-- Every successful attempt of the date pattern consumes a prefix of the
input whose shape passes `dateShape`. -/
theorem matchDateAt_sound (l m r : List Char) (h : matchDateAt l = some (m, r)) :
    l = m ++ r ∧ dateShape m = true := by
  unfold matchDateAt at h
  cases h22 : mdAlt 2 2 l with
  | some p =>
    obtain ⟨pm, pr⟩ := p
    rw [h22] at h
    simp only [Option.some_orElse, Option.some.injEq, Prod.mk.injEq] at h
    obtain ⟨rfl, rfl⟩ := h
    obtain ⟨e, efull⟩ := mdAlt_sound 2 2 l pm pr h22
    exact ⟨e, by simp [dateShape, efull]⟩
  | none =>
    rw [h22] at h
    simp only [Option.none_orElse] at h
    cases h21 : mdAlt 2 1 l with
    | some p =>
      obtain ⟨pm, pr⟩ := p
      rw [h21] at h
      simp only [Option.some_orElse, Option.some.injEq, Prod.mk.injEq] at h
      obtain ⟨rfl, rfl⟩ := h
      obtain ⟨e, efull⟩ := mdAlt_sound 2 1 l pm pr h21
      exact ⟨e, by simp [dateShape, efull]⟩
    | none =>
      rw [h21] at h
      simp only [Option.none_orElse] at h
      cases h12 : mdAlt 1 2 l with
      | some p =>
        obtain ⟨pm, pr⟩ := p
        rw [h12] at h
        simp only [Option.some_orElse, Option.some.injEq, Prod.mk.injEq] at h
        obtain ⟨rfl, rfl⟩ := h
        obtain ⟨e, efull⟩ := mdAlt_sound 1 2 l pm pr h12
        exact ⟨e, by simp [dateShape, efull]⟩
      | none =>
        rw [h12] at h
        simp only [Option.none_orElse] at h
        obtain ⟨e, efull⟩ := mdAlt_sound 1 1 l m r h
        exact ⟨e, by simp [dateShape, efull]⟩

theorem findDatesAux_shape :
    ∀ (fuel : Nat) (l m : List Char), m ∈ findDatesAux fuel l →
      dateShape m = true := by
  intro fuel
  induction fuel with
  | zero => intro l m h; simp [findDatesAux] at h
  | succ fuel ih =>
    intro l m h
    cases l with
    | nil => simp [findDatesAux] at h
    | cons c rest =>
      rw [findDatesAux] at h
      cases hm : matchDateAt (c :: rest) with
      | some p =>
        obtain ⟨pm, pr⟩ := p
        rw [hm] at h
        rcases List.mem_cons.mp h with rfl | h2
        · exact (matchDateAt_sound _ _ _ hm).2
        · exact ih _ _ h2
      | none =>
        rw [hm] at h
        exact ih _ _ h

theorem findDatesAux_nil_of_noMatch :
    ∀ (fuel : Nat) (l : List Char),
      (∀ n : Nat, matchDateAt (l.drop n) = none) → findDatesAux fuel l = [] := by
  intro fuel
  induction fuel with
  | zero => intro l _; rfl
  | succ fuel ih =>
    intro l h
    cases l with
    | nil => rfl
    | cons c rest =>
      have h0 := h 0
      simp only [List.drop_zero] at h0
      rw [findDatesAux, h0]
      exact ih rest fun n => by
        have hn := h (n + 1)
        simpa using hn

/-- Claim C8: every string the Dates scan returns has the literal shape
`D/M/YYYY` or `DD/MM/YYYY` (no calendar validity check, as the matched
31/02 dates show, duplicates retained in document order); when the
pattern matches at no position the scan returns the empty sequence. -/
theorem dates_scan_spec (text : String) :
    (∀ m ∈ findDates text, dateShape m.toList = true) ∧
    ((∀ n : Nat, matchDateAt (text.toList.drop n) = none) → findDates text = []) ∧
    findDates "due 31/02/2099, then 31/02/2099" = ["31/02/2099", "31/02/2099"] := by
  refine ⟨?_, ?_, by decide⟩
  · intro m hm
    unfold findDates at hm
    obtain ⟨mc, hmc, rfl⟩ := List.mem_map.mp hm
    exact findDatesAux_shape _ _ _ hmc
  · intro h
    unfold findDates
    rw [findDatesAux_nil_of_noMatch _ _ h]
    rfl

theorem dates_scan_spec_witness :
    dateShape ("31/02/2099".toList) = true ∧ findDates "" = [] :=
  ⟨(dates_scan_spec "due 31/02/2099, then 31/02/2099").1 "31/02/2099" (by decide),
   (dates_scan_spec "").2.1 fun n => by
    show matchDateAt (List.drop n []) = none
    rw [List.drop_nil]
    rfl⟩

end ContractBot
